import Mathlib

/-!
Verification of the BrewBalance event-sourced ledger
(src/utils/transactionStore.ts, src/utils/replayEngine.ts,
src/src/utils/migration.ts, src/types.ts).

Modelling conventions:
* Calendar dates (ISO `YYYY-MM-DD` strings in the source) are modelled as day
  indices (`Nat`): ISO date strings compare lexicographically exactly as
  chronologically, `addDays` is `+`, and `new Date(iso).getTime()` for a
  date-only ISO string is UTC midnight, i.e. `dayIndex * 86400000` ms.
* JS numbers carrying money amounts and timestamps are modelled as `Int`;
  no arithmetic is performed on amounts anywhere in the embedded code, and
  timestamps are integer epoch milliseconds.
* `Array.prototype.sort` with comparator `(a, b) => a.timestamp - b.timestamp`
  is, by the ECMAScript specification, a stable sort by `timestamp`; all stable
  sorts by the same key agree, so it is modelled by `List.insertionSort` on the
  non-strict timestamp order (Mathlib's insertion sort is stable).
* The `DataStore` key-value store is modelled by a record holding the parsed
  content of the three storage keys the ledger uses; `none` models an absent or
  unparseable key (parse failures fall back to the default, per `parseJSON`).
* JS objects used as string-keyed maps (`dailyBudgets`) are modelled as
  association lists with update-in-place / append-if-new semantics, which
  matches object key update and `Object.keys` ordering for non-integer-like
  keys such as ISO dates.
-/

namespace BrewBalance

/-- Challenge record (src/types.ts `Challenge`); only carried through, never
inspected by the replay engine. -/
structure Challenge where
  id : String
  name : String
  purpose : String
  startDate : Nat
  endDate : Nat
  status : Option String
deriving DecidableEq, Repr

/-- Expense entry (src/types.ts `Entry`). -/
structure Entry where
  id : String
  date : Nat
  amount : Int
  note : String
  timestamp : Int
deriving DecidableEq, Repr

/-- Derived settings (src/types.ts `Settings`).  `startDate` is an ISO string in
the source; `none` models the empty string (the only falsy string), matching the
`settings.startDate || formatDateISO(new Date())` fallback in `materializeUpTo`. -/
structure Settings where
  weekdayBudget : Int
  weekendBudget : Int
  currency : String
  alarmThreshold : Int
  startDate : Option Nat
  endDate : Option Nat
  logo : Option String
  customBudgets : List (Nat × Int)
  customRollovers : List (Nat × Int)
  userName : String
  activeChallenge : Option Challenge
  pastChallenges : List Challenge
deriving DecidableEq, Repr

/-- `Partial<Settings>` (the payload of a `SETTINGS_UPDATED` transaction): every
field optional, `none` modelling an absent key. -/
structure SettingsPatch where
  weekdayBudget : Option Int := none
  weekendBudget : Option Int := none
  currency : Option String := none
  alarmThreshold : Option Int := none
  startDate : Option (Option Nat) := none
  endDate : Option (Option Nat) := none
  logo : Option (Option String) := none
  customBudgets : Option (List (Nat × Int)) := none
  customRollovers : Option (List (Nat × Int)) := none
  userName : Option String := none
  activeChallenge : Option (Option Challenge) := none
  pastChallenges : Option (List Challenge) := none
deriving DecidableEq, Repr

/-- The JS shallow merge `{ ...settings, ...settingsPatch }`: a key present in
the patch overwrites the corresponding settings field. -/
def applyPatch (s : Settings) (p : SettingsPatch) : Settings where
  weekdayBudget := p.weekdayBudget.getD s.weekdayBudget
  weekendBudget := p.weekendBudget.getD s.weekendBudget
  currency := p.currency.getD s.currency
  alarmThreshold := p.alarmThreshold.getD s.alarmThreshold
  startDate := p.startDate.getD s.startDate
  endDate := p.endDate.getD s.endDate
  logo := p.logo.getD s.logo
  customBudgets := p.customBudgets.getD s.customBudgets
  customRollovers := p.customRollovers.getD s.customRollovers
  userName := p.userName.getD s.userName
  activeChallenge := p.activeChallenge.getD s.activeChallenge
  pastChallenges := p.pastChallenges.getD s.pastChallenges

/-- Modelled from the spec: `DEFAULT_SETTINGS` lives in `src/constants.ts`, which
is not among the provided sources.  Section 3 of the spec only says settings are
derived "by left-folding all `SettingsUpdated` patches in timestamp order onto a
fixed default", so we fix one concrete default; no claim depends on its values. -/
def DEFAULT_SETTINGS : Settings where
  weekdayBudget := 0
  weekendBudget := 0
  currency := "EUR"
  alarmThreshold := 0
  startDate := none
  endDate := none
  logo := none
  customBudgets := []
  customRollovers := []
  userName := ""
  activeChallenge := none
  pastChallenges := []

/-- Payload of a transaction, by kind (src/types.ts `Transaction` union). -/
inductive TxData where
  | settingsUpdated (settingsPatch : SettingsPatch)
  | entryAdded (entry : Entry)
  | dailyBudgetCreated (date : Nat) (baseBudget : Int) (rollover : Int)
  | customRolloverSet (date : Nat) (rollover : Int) (delta : Int) (reason : Option String)
  | challengeCreated (challenge : Challenge)
  | challengeArchived (challenge : Challenge)
deriving DecidableEq, Repr

/-- A ledger event (src/types.ts `BaseTransaction` plus its kind-specific payload). -/
structure Transaction where
  id : String
  timestamp : Int
  data : TxData
deriving DecidableEq, Repr

/-- Applied daily budget for one date: the value stored in `dailyBudgets[date]`. -/
structure DailyBudget where
  baseBudget : Int
  rollover : Int
deriving DecidableEq, Repr

/-- The `dailyBudgets` object: date-keyed map as an association list. -/
abbrev DailyBudgets := List (Nat × DailyBudget)

/-- Lookup `dailyBudgets[date]`. -/
def dbGet (m : DailyBudgets) (d : Nat) : Option DailyBudget :=
  match m with
  | [] => none
  | (k, v) :: rest => if k = d then some v else dbGet rest d

/-- Assignment `dailyBudgets[date] = v`: update in place if the key exists,
append otherwise (JS object semantics for string keys). -/
def dbSet (m : DailyBudgets) (d : Nat) (v : DailyBudget) : DailyBudgets :=
  match m with
  | [] => [(d, v)]
  | (k, w) :: rest => if k = d then (k, v) :: rest else (k, w) :: dbSet rest d v

/-- Milliseconds per day. -/
def msPerDay : Int := 86400000

/-- `new Date(isoDate).getTime()`: UTC midnight of the date, in epoch ms. -/
def dateMs (d : Nat) : Int := (d : Int) * msPerDay

/-- The id `tx-daily-${date}` used by `ensureDailyBudgetForDate`. -/
def dailyTxId (date : Nat) : String := "tx-daily-" ++ toString date

/-- The store (src/utils/datastore.ts `DataStore`), restricted to the keys the
ledger reads or writes.  Each field is the parsed content of one storage key;
`none` models an absent or unparseable value (`parseJSON` / `loadLegacySettings`
/ `loadLegacyEntries` all swallow parse failures into their fallback). -/
structure Store where
  transactions : Option (List Transaction)
  legacySettings : Option SettingsPatch
  legacyEntries : Option (List Entry)
deriving DecidableEq, Repr

/-- A store with no persisted data at all. -/
def emptyStore : Store := ⟨none, none, none⟩

/-- src/utils/transactionStore.ts `loadTransactions`: the stored sequence, or
`[]` when the key is absent or corrupt. -/
def loadTransactions (s : Store) : List Transaction :=
  s.transactions.getD []

/-- src/utils/transactionStore.ts `saveTransactions`: overwrite the full sequence. -/
def saveTransactions (txs : List Transaction) (s : Store) : Store :=
  { s with transactions := some txs }

/-- src/utils/transactionStore.ts `clearTransactions`. -/
def clearTransactions (s : Store) : Store :=
  { s with transactions := none }

/-- Non-strict order by `timestamp`: the order induced by the JS comparator
`(a, b) => a.timestamp - b.timestamp`. -/
def tsLe (a b : Transaction) : Prop := a.timestamp ≤ b.timestamp

instance : DecidableRel tsLe := fun a b => inferInstanceAs (Decidable (a.timestamp ≤ b.timestamp))

instance : IsTotal Transaction tsLe := ⟨fun a b => Int.le_total a.timestamp b.timestamp⟩

instance : IsTrans Transaction tsLe := ⟨fun _ _ _ h₁ h₂ => le_trans h₁ h₂⟩

/-- `txs.sort((a, b) => a.timestamp - b.timestamp)`: a stable sort by
`timestamp` (ECMAScript requires `Array.prototype.sort` to be stable; all
stable sorts by the same key coincide, so insertion sort models it exactly). -/
def sortByTimestamp (txs : List Transaction) : List Transaction :=
  List.insertionSort tsLe txs

/-- src/utils/transactionStore.ts `appendTransaction`: load, skip if the id is
already present, otherwise push and re-sort by timestamp, then save. -/
def appendTransaction (tx : Transaction) (s : Store) : Store :=
  let txs := loadTransactions s
  if txs.any (fun t => t.id == tx.id) then s
  else saveTransactions (sortByTimestamp (txs ++ [tx])) s

/-- The mutable state of the fold inside `replay`: running settings, entries,
and daily budgets. -/
structure FoldState where
  settings : Settings
  entries : List Entry
  dailyBudgets : DailyBudgets
deriving DecidableEq, Repr

/-- Initial fold state: `{ ...DEFAULT_SETTINGS }`, `[]`, `{}`. -/
def initState : FoldState := ⟨DEFAULT_SETTINGS, [], []⟩

/-- One iteration of the `switch` in `replay` (src/utils/replayEngine.ts,
lines 34-77): the effect of a single transaction on the fold state. -/
def applyTx (st : FoldState) (tx : Transaction) : FoldState :=
  match tx.data with
  | .settingsUpdated p => { st with settings := applyPatch st.settings p }
  | .entryAdded e => { st with entries := st.entries ++ [e] }
  | .dailyBudgetCreated d b r => { st with dailyBudgets := dbSet st.dailyBudgets d ⟨b, r⟩ }
  | .customRolloverSet d r _ _ =>
      let existing := (dbGet st.dailyBudgets d).getD ⟨0, 0⟩
      { st with dailyBudgets := dbSet st.dailyBudgets d ⟨existing.baseBudget, r⟩ }
  | .challengeCreated _ => st
  | .challengeArchived _ => st

/-- The `for` loop of `replay`: fold the transactions in order, and `break` at
the first transaction whose timestamp exceeds the cutoff, when one is given. -/
def runFold (cutoff : Option Int) (st : FoldState) : List Transaction → FoldState
  | [] => st
  | tx :: rest =>
      match cutoff with
      | some c => if tx.timestamp > c then st else runFold (some c) (applyTx st tx) rest
      | none => runFold none (applyTx st tx) rest

/-- The result of `replay`. -/
structure ReplayResult where
  settings : Settings
  entries : List Entry
  dailyBudgets : DailyBudgets
  transactions : List Transaction
deriving DecidableEq, Repr

/-- The three derived-state components of a replay result. -/
def ReplayResult.state (r : ReplayResult) : FoldState :=
  ⟨r.settings, r.entries, r.dailyBudgets⟩

/-- src/utils/replayEngine.ts `replay(transactions?, throughDate?, store?)`.
`transactions && transactions.length ? transactions : loadTransactions(store)`
is the argument resolution; the list is then defensively sorted and folded. -/
def replay (transactions : Option (List Transaction)) (throughDate : Option Nat)
    (store : Store) : ReplayResult :=
  let txs :=
    match transactions with
    | some l => if l.isEmpty then loadTransactions store else l
    | none => loadTransactions store
  let sorted := sortByTimestamp txs
  let st := runFold (throughDate.map dateMs) initState sorted
  ⟨st.settings, st.entries, st.dailyBudgets, sorted⟩

/-- Modelled from the spec: `calculateStats` (src/utils/financeHelpers.ts) is
not among the provided sources; section 6 specifies it only as an opaque, pure
Stats Calculator `computeDailyFigures(settings, entries, date) -> {baseBudget,
rollover, ...}` whose arithmetic is out of scope.  A `StatsFor` value models
`calculateStats(settings, entries, date)[date]`, i.e. the day's figures looked
up in the returned map, `none` when the map has no entry for the date (the
fallback branch of `ensureDailyBudgetForDate`).  All theorems about the replay
engine quantify over it. -/
abbrev StatsFor := Settings → List Entry → Nat → Option DailyBudget

/-- src/utils/replayEngine.ts `ensureDailyBudgetForDate(date, transactions?)`.
`statsFor` models the Stats Calculator and `nowMs` the `Date.now()` timestamp
stamped on the appended transaction (modelled from the spec's Clock contract;
the source reads the real clock here).  Returns the budget together with the
updated store. -/
def ensureDailyBudgetForDate (statsFor : StatsFor) (nowMs : Int) (date : Nat)
    (transactions : Option (List Transaction)) (s : Store) : DailyBudget × Store :=
  let txs :=
    match transactions with
    | some l => if l.isEmpty then loadTransactions s else l
    | none => loadTransactions s
  let r := replay (some txs) (some date) s
  match dbGet r.dailyBudgets date with
  | some b => (b, s)
  | none =>
      match statsFor r.settings r.entries date with
      | none =>
          let fallback : DailyBudget := ⟨0, 0⟩
          let tx : Transaction :=
            ⟨dailyTxId date, nowMs, .dailyBudgetCreated date fallback.baseBudget fallback.rollover⟩
          (fallback, appendTransaction tx s)
      | some dayStats =>
          let budget : DailyBudget := ⟨dayStats.baseBudget, dayStats.rollover⟩
          let tx : Transaction :=
            ⟨dailyTxId date, nowMs, .dailyBudgetCreated date budget.baseBudget budget.rollover⟩
          (budget, appendTransaction tx s)

/-- The `while (cur <= throughDate)` loop of `materializeUpTo`.  `txs` is the
snapshot loaded once before the loop; `today` models `formatDateISO(new Date())`
(re-read each iteration in the source, constant during one call); the store is
threaded through the `ensureDailyBudgetForDate` calls.  The recursion is driven
by a fuel argument (instantiated with the full length of the date range, so the
guard `cur ≤ throughDate` always stops the loop first); this keeps the
definition structurally recursive, hence computable by the kernel. -/
def materializeLoop (statsFor : StatsFor) (today : Nat) (nowMs : Int)
    (txs : List Transaction) (throughDate : Nat) :
    Nat → Nat → Store → List Nat → List Nat × Store
  | 0, _, s, acc => (acc, s)
  | fuel + 1, cur, s, acc =>
    if cur ≤ throughDate then
      if cur < today then
        match dbGet (replay (some txs) (some cur) s).dailyBudgets cur with
        | none =>
            let s' := (ensureDailyBudgetForDate statsFor nowMs cur (some txs) s).2
            materializeLoop statsFor today nowMs txs throughDate fuel (cur + 1) s' (acc ++ [cur])
        | some _ => materializeLoop statsFor today nowMs txs throughDate fuel (cur + 1) s acc
      else materializeLoop statsFor today nowMs txs throughDate fuel (cur + 1) s acc
    else (acc, s)

/-- src/utils/replayEngine.ts `materializeUpTo(throughDate)`: load the log,
derive the start date from replayed settings (falling back to today), then walk
every date up to `throughDate` inclusive, materializing each date that is
strictly before today and has no daily budget yet. -/
def materializeUpTo (statsFor : StatsFor) (today : Nat) (nowMs : Int)
    (throughDate : Nat) (s : Store) : List Nat × Store :=
  let txs := loadTransactions s
  let settings := (replay (some txs) none s).settings
  let start := settings.startDate.getD today
  materializeLoop statsFor today nowMs txs throughDate (throughDate + 1 - start) start s []

/-- src/src/utils/migration.ts `MigrationReport`. -/
structure MigrationReport where
  alreadyMigrated : Bool
  entriesCreated : Nat
  budgetsCreated : Nat
  settingsCreated : Nat
  totalTransactions : Nat
  materializedDates : List Nat
  warnings : List String
deriving DecidableEq, Repr

/-- src/src/utils/migration.ts `isMigrated`: true iff the log is non-empty. -/
def isMigrated (s : Store) : Bool :=
  (loadTransactions s).length > 0

/-- Stable sort of legacy entries by their own timestamp
(`[...legacyEntries].sort((a, b) => a.timestamp - b.timestamp)`). -/
def sortEntriesByTimestamp (es : List Entry) : List Entry :=
  List.insertionSort (fun a b => a.timestamp ≤ b.timestamp) es

/-- src/src/utils/migration.ts `migrateFromLegacyModel(store?)`.  `today` and
`nowMs` model the Clock readings (`getTodayISO()` and the `Date.now()` used
inside materialization); `addDays(today, -1)` is modelled by truncated `Nat`
subtraction (the start of the epoch is never `today` in practice).  Nothing in
the model throws, so the `catch` branch is unreachable and the happy path is
embedded. -/
def migrateFromLegacyModel (statsFor : StatsFor) (today : Nat) (nowMs : Int)
    (s : Store) : MigrationReport × Store :=
  let existing := loadTransactions s
  if existing.length > 0 then
    (⟨true, 0, 0, 0, existing.length, [], ["Migration already completed."]⟩, s)
  else
    let legacySettings := s.legacySettings
    let legacyEntries := s.legacyEntries.getD []
    let settingsTx : Transaction :=
      ⟨"tx-settings-initial", 0, .settingsUpdated (legacySettings.getD {})⟩
    let sortedEntries := sortEntriesByTimestamp legacyEntries
    let entryTxs := sortedEntries.map fun e =>
      (⟨"tx-entry-" ++ e.id, e.timestamp, .entryAdded e⟩ : Transaction)
    let transactions := settingsTx :: entryTxs
    let s1 := saveTransactions transactions s
    let yesterday := today - 1
    let res := materializeUpTo statsFor today nowMs yesterday s1
    let replayResult := replay (some transactions) (some yesterday) res.2
    let budgetsCreated := replayResult.dailyBudgets.length
    (⟨false, entryTxs.length, budgetsCreated, 1,
      transactions.length + budgetsCreated, res.1, []⟩, res.2)

/-- Appending a sequence of events one by one, in order. -/
def appendAll (es : List Transaction) (s : Store) : Store :=
  es.foldl (fun st e => appendTransaction e st) s

/-- The subsequence of `es` that `appendAll` actually persists: the first
event of each id, later events with an already-seen id being skipped. -/
def dedupByIdAux (seen : List String) : List Transaction → List Transaction
  | [] => []
  | t :: ts =>
      if t.id ∈ seen then dedupByIdAux seen ts
      else t :: dedupByIdAux (t.id :: seen) ts

/-- The events of `es` surviving id-deduplication, in append order. -/
def dedupById (es : List Transaction) : List Transaction :=
  dedupByIdAux [] es

/-- The inclusive date range `[a, a+1, ..., b]` walked by `materializeUpTo`. -/
def dateRange (a b : Nat) : List Nat :=
  (List.range (b + 1 - a)).map (a + ·)

/-- Insertion of a new element at the end of its timestamp tie class: where a
stable sort puts an element appended at the end of the input. -/
def stableInsert (e : Transaction) : List Transaction → List Transaction
  | [] => [e]
  | b :: l => if b.timestamp ≤ e.timestamp then b :: stableInsert e l else e :: b :: l

/-! ### Lemmas about the stable sort -/

theorem tsLe_iff {a b : Transaction} : tsLe a b ↔ a.timestamp ≤ b.timestamp := Iff.rfl

theorem orderedInsert_all_le {a : Transaction} {m : List Transaction}
    (h : ∀ x ∈ m, a.timestamp ≤ x.timestamp) :
    List.orderedInsert tsLe a m = a :: m := by
  cases m with
  | nil => rfl
  | cons b l =>
      have hb : tsLe a b := h b (List.mem_cons_self b l)
      simp [List.orderedInsert, hb]

theorem orderedInsert_stableInsert (a e : Transaction) (m : List Transaction) :
    List.orderedInsert tsLe a (stableInsert e m) =
      stableInsert e (List.orderedInsert tsLe a m) := by
  induction m with
  | nil =>
      by_cases h : a.timestamp ≤ e.timestamp <;>
        simp [stableInsert, List.orderedInsert, tsLe, h]
  | cons b m ih =>
      by_cases hbe : b.timestamp ≤ e.timestamp
      · by_cases hab : a.timestamp ≤ b.timestamp
        · have hae : a.timestamp ≤ e.timestamp := le_trans hab hbe
          simp [stableInsert, List.orderedInsert, tsLe, hbe, hab, hae]
        · simp [stableInsert, List.orderedInsert, tsLe, hbe, hab, ih]
      · by_cases hab : a.timestamp ≤ b.timestamp
        · by_cases hae : a.timestamp ≤ e.timestamp
          · simp [stableInsert, List.orderedInsert, tsLe, hbe, hab, hae]
          · simp [stableInsert, List.orderedInsert, tsLe, hbe, hab, hae]
        · have hae : ¬ a.timestamp ≤ e.timestamp := by omega
          simp [stableInsert, List.orderedInsert, tsLe, hbe, hab, hae]

theorem insertionSort_concat (l : List Transaction) (e : Transaction) :
    List.insertionSort tsLe (l ++ [e]) = stableInsert e (List.insertionSort tsLe l) := by
  induction l with
  | nil => rfl
  | cons a l ih =>
      show List.orderedInsert tsLe a (List.insertionSort tsLe (l ++ [e])) = _
      rw [ih, orderedInsert_stableInsert]
      rfl

theorem stableInsert_of_le {m : List Transaction} {e : Transaction}
    (h : ∀ b ∈ m, b.timestamp ≤ e.timestamp) : stableInsert e m = m ++ [e] := by
  induction m with
  | nil => rfl
  | cons b l ih =>
      have hb : b.timestamp ≤ e.timestamp := h b (List.mem_cons_self b l)
      simp only [stableInsert, if_pos hb, List.cons_append, List.cons.injEq, true_and]
      exact ih fun x hx => h x (List.mem_cons_of_mem b hx)

theorem sortByTimestamp_sorted (l : List Transaction) :
    List.Sorted tsLe (sortByTimestamp l) :=
  List.sorted_insertionSort tsLe l

theorem sortByTimestamp_of_sorted {l : List Transaction} (h : List.Sorted tsLe l) :
    sortByTimestamp l = l :=
  h.insertionSort_eq

theorem sortByTimestamp_perm (l : List Transaction) : List.Perm (sortByTimestamp l) l :=
  List.perm_insertionSort tsLe l

theorem sortByTimestamp_idem (l : List Transaction) :
    sortByTimestamp (sortByTimestamp l) = sortByTimestamp l :=
  sortByTimestamp_of_sorted (sortByTimestamp_sorted l)

theorem filter_orderedInsert (p : Transaction → Bool) {a : Transaction}
    {m : List Transaction} (hm : List.Sorted tsLe m) :
    (List.orderedInsert tsLe a m).filter p =
      if p a then List.orderedInsert tsLe a (m.filter p) else m.filter p := by
  induction m with
  | nil => by_cases h : p a <;> simp [List.orderedInsert, h]
  | cons b m ih =>
      have hm' : List.Sorted tsLe m := hm.tail
      have hball : ∀ x ∈ m, tsLe b x := fun x hx => List.rel_of_sorted_cons hm x hx
      by_cases hab : a.timestamp ≤ b.timestamp
      · have h1 : List.orderedInsert tsLe a (b :: m) = a :: b :: m := by
          simp [List.orderedInsert, tsLe, hab]
        rw [h1]
        by_cases hpa : p a
        · by_cases hpb : p b
          · simp [List.filter_cons, hpa, hpb, List.orderedInsert, tsLe, hab]
          · have hfilter : ∀ x ∈ m.filter p, a.timestamp ≤ x.timestamp := by
              intro x hx
              have hxm : x ∈ m := List.mem_of_mem_filter hx
              exact le_trans hab (hball x hxm)
            simp only [List.filter_cons, hpa, hpb, if_pos hpa]
            simp only [Bool.false_eq_true, if_false, if_true]
            rw [orderedInsert_all_le hfilter]
        · simp [List.filter_cons, hpa]
      · have h1 : List.orderedInsert tsLe a (b :: m) = b :: List.orderedInsert tsLe a m := by
          simp [List.orderedInsert, tsLe, hab]
        rw [h1]
        by_cases hpa : p a <;> by_cases hpb : p b <;>
          simp [List.filter_cons, hpa, hpb, ih hm', List.orderedInsert, tsLe, hab]

theorem filter_insertionSort (p : Transaction → Bool) (l : List Transaction) :
    (List.insertionSort tsLe l).filter p = List.insertionSort tsLe (l.filter p) := by
  induction l with
  | nil => rfl
  | cons a l ih =>
      have hs := List.sorted_insertionSort tsLe l
      by_cases hpa : p a <;>
        simp [List.insertionSort, filter_orderedInsert p hs, hpa, ih, List.filter_cons]

theorem filter_sortByTimestamp (p : Transaction → Bool) (l : List Transaction) :
    (sortByTimestamp l).filter p = sortByTimestamp (l.filter p) :=
  filter_insertionSort p l

/-! ### Lemmas about the fold -/

theorem runFold_append (st : FoldState) (l₁ l₂ : List Transaction) :
    runFold none st (l₁ ++ l₂) = runFold none (runFold none st l₁) l₂ := by
  induction l₁ generalizing st with
  | nil => rfl
  | cons a l ih => simpa [runFold] using ih (applyTx st a)

theorem runFold_cutoff_eq_filter {c : Int} :
    ∀ {L : List Transaction}, List.Sorted tsLe L → ∀ st : FoldState,
      runFold (some c) st L = runFold none st (L.filter fun t => decide (t.timestamp ≤ c)) := by
  intro L
  induction L with
  | nil => intro _ _; rfl
  | cons a L ih =>
      intro hL st
      by_cases hc : a.timestamp > c
      · have hrest : L.filter (fun t => decide (t.timestamp ≤ c)) = [] := by
          rw [List.filter_eq_nil_iff]
          intro t ht
          have hat : a.timestamp ≤ t.timestamp := List.rel_of_sorted_cons hL t ht
          simp only [decide_eq_true_eq]
          omega
        simp [runFold, hc, hrest, List.filter_cons, show ¬ a.timestamp ≤ c by omega]
      · have hle : a.timestamp ≤ c := by omega
        simp [runFold, hc, List.filter_cons, hle, ih hL.tail (applyTx st a)]

/-- Whether a transaction writes the `dailyBudgets` entry of date `d` when folded. -/
def writesDate (tx : Transaction) (d : Nat) : Prop :=
  match tx.data with
  | .dailyBudgetCreated d' _ _ => d' = d
  | .customRolloverSet d' _ _ _ => d' = d
  | _ => False

instance (tx : Transaction) (d : Nat) : Decidable (writesDate tx d) := by
  unfold writesDate
  rcases tx.data <;> infer_instance

theorem dbGet_dbSet_self (m : DailyBudgets) (d : Nat) (v : DailyBudget) :
    dbGet (dbSet m d v) d = some v := by
  induction m with
  | nil => simp [dbSet, dbGet]
  | cons kv rest ih =>
      obtain ⟨k, w⟩ := kv
      by_cases hk : k = d <;> simp [dbSet, dbGet, hk, ih]

theorem dbGet_dbSet_ne (m : DailyBudgets) {d d' : Nat} (h : d' ≠ d) (v : DailyBudget) :
    dbGet (dbSet m d v) d' = dbGet m d' := by
  have hdd : ¬ (d = d') := fun he => h he.symm
  induction m with
  | nil => simp [dbSet, dbGet, hdd]
  | cons kv rest ih =>
      obtain ⟨k, w⟩ := kv
      by_cases hk : k = d
      · subst hk
        simp [dbSet, dbGet, hdd]
      · simp [dbSet, dbGet, hk, ih]

theorem dbGet_applyTx_of_not_writes {st : FoldState} {tx : Transaction} {d : Nat}
    (h : ¬ writesDate tx d) :
    dbGet (applyTx st tx).dailyBudgets d = dbGet st.dailyBudgets d := by
  rcases htx : tx.data with p | e | ⟨d', b, r⟩ | ⟨d', r, dl, rs⟩ | ch | ch
  · simp [applyTx, htx]
  · simp [applyTx, htx]
  · have hd : ¬ (d' = d) := by simp [writesDate, htx] at h; exact h
    simp only [applyTx, htx]
    exact dbGet_dbSet_ne _ (fun he => hd he.symm) _
  · have hd : ¬ (d' = d) := by simp [writesDate, htx] at h; exact h
    simp only [applyTx, htx]
    exact dbGet_dbSet_ne _ (fun he => hd he.symm) _
  · simp [applyTx, htx]
  · simp [applyTx, htx]

theorem dbGet_runFold_none_of_no_writes {d : Nat} :
    ∀ {L : List Transaction} (st : FoldState), (∀ t ∈ L, ¬ writesDate t d) →
      dbGet (runFold none st L).dailyBudgets d = dbGet st.dailyBudgets d := by
  intro L
  induction L with
  | nil => intro st _; rfl
  | cons a L ih =>
      intro st h
      rw [show runFold none st (a :: L) = runFold none (applyTx st a) L from rfl,
        ih (applyTx st a) fun t ht => h t (List.mem_cons_of_mem a ht),
        dbGet_applyTx_of_not_writes (h a (List.mem_cons_self a L))]

theorem dbGet_runFold_eq_none {d : Nat} :
    ∀ {L : List Transaction} {st : FoldState},
      dbGet (runFold none st L).dailyBudgets d = none →
      dbGet st.dailyBudgets d = none ∧ ∀ t ∈ L, ¬ writesDate t d := by
  intro L
  induction L with
  | nil => intro st h; exact ⟨h, by simp⟩
  | cons a L ih =>
      intro st h
      rw [show runFold none st (a :: L) = runFold none (applyTx st a) L from rfl] at h
      obtain ⟨h1, h2⟩ := ih h
      by_cases hw : writesDate a d
      · exfalso
        have hne : dbGet (applyTx st a).dailyBudgets d ≠ none := by
          rcases htx : a.data with p | e | ⟨d', b, r⟩ | ⟨d', r, dl, rs⟩ | ch | ch <;>
            simp [writesDate, htx] at hw <;> subst hw <;>
            simp [applyTx, htx, dbGet_dbSet_self]
        exact hne h1
      · rw [dbGet_applyTx_of_not_writes hw] at h1
        refine ⟨h1, fun t ht => ?_⟩
        rcases List.mem_cons.mp ht with rfl | ht'
        · exact hw
        · exact h2 t ht'

theorem dbGet_runFold_preserved {d : Nat} {b r : Int} :
    ∀ {L : List Transaction} {st : FoldState},
      (∀ t ∈ L, writesDate t d → t.data = .dailyBudgetCreated d b r) →
      dbGet st.dailyBudgets d = some ⟨b, r⟩ →
      dbGet (runFold none st L).dailyBudgets d = some ⟨b, r⟩ := by
  intro L
  induction L with
  | nil => intro st _ h; exact h
  | cons a L ih =>
      intro st hw h
      rw [show runFold none st (a :: L) = runFold none (applyTx st a) L from rfl]
      refine ih (fun t ht => hw t (List.mem_cons_of_mem a ht)) ?_
      by_cases hwa : writesDate a d
      · have hdata := hw a (List.mem_cons_self a L) hwa
        simp [applyTx, hdata, dbGet_dbSet_self]
      · rw [dbGet_applyTx_of_not_writes hwa]
        exact h

theorem dbGet_runFold_unique_writer {d : Nat} {b r : Int} {e : Transaction}
    (he : e.data = .dailyBudgetCreated d b r) :
    ∀ {L : List Transaction} {st : FoldState}, e ∈ L →
      (∀ t ∈ L, writesDate t d → t = e) →
      dbGet st.dailyBudgets d = none →
      dbGet (runFold none st L).dailyBudgets d = some ⟨b, r⟩ := by
  intro L
  induction L with
  | nil => intro st h; simp at h
  | cons a L ih =>
      intro st hmem hw hnone
      rw [show runFold none st (a :: L) = runFold none (applyTx st a) L from rfl]
      by_cases hwa : writesDate a d
      · have ha : a = e := hw a (List.mem_cons_self a L) hwa
        subst ha
        have hbase : dbGet (applyTx st a).dailyBudgets d = some ⟨b, r⟩ := by
          simp [applyTx, he, dbGet_dbSet_self]
        exact dbGet_runFold_preserved
          (fun t ht hwt => by rw [hw t (List.mem_cons_of_mem a ht) hwt, he]) hbase
      · have hmem' : e ∈ L := by
          rcases List.mem_cons.mp hmem with rfl | h'
          · exact absurd (show writesDate e d by simp [writesDate, he]) hwa
          · exact h'
        have hnone' : dbGet (applyTx st a).dailyBudgets d = none := by
          rw [dbGet_applyTx_of_not_writes hwa]
          exact hnone
        exact ih hmem' (fun t ht => hw t (List.mem_cons_of_mem a ht)) hnone'

/-! ### Lemmas about the persisted log -/

theorem appendTransaction_of_dup {s : Store} {e : Transaction}
    (h : (loadTransactions s).any (fun t => t.id == e.id) = true) :
    appendTransaction e s = s := by
  simp only [appendTransaction, h, if_true]

theorem loadTransactions_appendTransaction_of_fresh {s : Store} {e : Transaction}
    (h : (loadTransactions s).any (fun t => t.id == e.id) = false) :
    loadTransactions (appendTransaction e s) = sortByTimestamp (loadTransactions s ++ [e]) := by
  simp only [appendTransaction, h, Bool.false_eq_true, if_false]
  rfl

theorem any_id_eq_false_iff {l : List Transaction} {i : String} :
    l.any (fun t => t.id == i) = false ↔ ∀ t ∈ l, t.id ≠ i := by
  simp [List.any_eq_true]

theorem any_id_eq_true_iff {l : List Transaction} {i : String} :
    l.any (fun t => t.id == i) = true ↔ ∃ t ∈ l, t.id = i := by
  simp [List.any_eq_true]

theorem appendAll_concat (es : List Transaction) (e : Transaction) (s : Store) :
    appendAll (es ++ [e]) s = appendTransaction e (appendAll es s) := by
  simp [appendAll]

theorem dedupByIdAux_concat (e : Transaction) :
    ∀ (es : List Transaction) (seen : List String),
      dedupByIdAux seen (es ++ [e]) =
        dedupByIdAux seen es ++
          (if e.id ∈ seen ∨ ∃ t ∈ dedupByIdAux seen es, t.id = e.id then [] else [e]) := by
  intro es
  induction es with
  | nil =>
      intro seen
      by_cases h : e.id ∈ seen <;> simp [dedupByIdAux, h]
  | cons t es ih =>
      intro seen
      by_cases ht : t.id ∈ seen
      · show dedupByIdAux seen (t :: (es ++ [e])) = _
        rw [show dedupByIdAux seen (t :: (es ++ [e])) = dedupByIdAux seen (es ++ [e]) by
            simp [dedupByIdAux, ht],
          show dedupByIdAux seen (t :: es) = dedupByIdAux seen es by simp [dedupByIdAux, ht],
          ih seen]
      · show dedupByIdAux seen (t :: (es ++ [e])) = _
        rw [show dedupByIdAux seen (t :: (es ++ [e]))
              = t :: dedupByIdAux (t.id :: seen) (es ++ [e]) by simp [dedupByIdAux, ht],
          show dedupByIdAux seen (t :: es) = t :: dedupByIdAux (t.id :: seen) es by
            simp [dedupByIdAux, ht],
          ih (t.id :: seen)]
        have hC : (e.id ∈ t.id :: seen ∨ ∃ u ∈ dedupByIdAux (t.id :: seen) es, u.id = e.id)
            ↔ (e.id ∈ seen ∨ ∃ u ∈ t :: dedupByIdAux (t.id :: seen) es, u.id = e.id) := by
          simp only [List.mem_cons]
          constructor
          · rintro ((h | h) | ⟨u, hu, hid⟩)
            · exact Or.inr ⟨t, Or.inl rfl, h.symm⟩
            · exact Or.inl h
            · exact Or.inr ⟨u, Or.inr hu, hid⟩
          · rintro (h | ⟨u, (rfl | hu), hid⟩)
            · exact Or.inl (Or.inr h)
            · exact Or.inl (Or.inl hid.symm)
            · exact Or.inr ⟨u, hu, hid⟩
        rw [if_congr hC rfl rfl]
        simp

theorem mem_dedupByIdAux_id {seen : List String} :
    ∀ {es : List Transaction} {t : Transaction}, t ∈ dedupByIdAux seen es → t ∈ es := by
  intro es
  induction es generalizing seen with
  | nil => intro t h; simp [dedupByIdAux] at h
  | cons a es ih =>
      intro t h
      by_cases ha : a.id ∈ seen
      · simp only [dedupByIdAux, if_pos ha] at h
        exact List.mem_cons_of_mem a (ih h)
      · simp only [dedupByIdAux, if_neg ha, List.mem_cons] at h
        rcases h with rfl | h'
        · exact List.mem_cons_self t es
        · exact List.mem_cons_of_mem a (ih h')

/-- The log obtained by appending `es` in order to an empty store is exactly the
stable timestamp sort of the id-deduplicated append sequence. -/
theorem appendAll_log (es : List Transaction) :
    loadTransactions (appendAll es emptyStore) = sortByTimestamp (dedupById es) := by
  induction es using List.reverseRecOn with
  | nil => rfl
  | append_singleton es e ih =>
      rw [appendAll_concat]
      by_cases hdup : (loadTransactions (appendAll es emptyStore)).any
          (fun t => t.id == e.id) = true
      · rw [appendTransaction_of_dup hdup, ih]
        obtain ⟨t, htmem, htid⟩ := any_id_eq_true_iff.mp hdup
        rw [ih] at htmem
        have htmem' : t ∈ dedupById es := (sortByTimestamp_perm _).mem_iff.mp htmem
        have hcond : e.id ∈ ([] : List String) ∨ ∃ t ∈ dedupByIdAux [] es, t.id = e.id :=
          Or.inr ⟨t, htmem', htid⟩
        simp only [dedupById]
        rw [dedupByIdAux_concat e es [], if_pos hcond, List.append_nil]
      · have hfresh : (loadTransactions (appendAll es emptyStore)).any
            (fun t => t.id == e.id) = false := Bool.eq_false_iff.mpr hdup
        rw [loadTransactions_appendTransaction_of_fresh hfresh, ih]
        have hcond : ¬ (e.id ∈ ([] : List String) ∨ ∃ t ∈ dedupByIdAux [] es, t.id = e.id) := by
          rintro (h | ⟨t, htmem, htid⟩)
          · simp at h
          · have htl : t ∈ loadTransactions (appendAll es emptyStore) := by
              rw [ih]
              exact (sortByTimestamp_perm _).mem_iff.mpr htmem
            exact any_id_eq_false_iff.mp hfresh t htl htid
        simp only [dedupById]
        rw [dedupByIdAux_concat e es [], if_neg hcond]
        show sortByTimestamp (sortByTimestamp (dedupByIdAux [] es) ++ [e]) = _
        simp only [sortByTimestamp]
        rw [insertionSort_concat, insertionSort_concat,
          List.Sorted.insertionSort_eq (List.sorted_insertionSort tsLe (dedupByIdAux [] es))]

/-! ### Helper facts about `replay` -/

theorem replay_explicit_store_indep {E : List Transaction} (hE : E ≠ [])
    (d : Option Nat) (s₁ s₂ : Store) :
    replay (some E) d s₁ = replay (some E) d s₂ := by
  cases E with
  | nil => exact absurd rfl hE
  | cons a E => rfl

theorem replay_loadTransactions_eq_none (d : Option Nat) (s : Store) :
    replay (some (loadTransactions s)) d s = replay none d s := by
  cases h : loadTransactions s with
  | nil => simp [replay, h]
  | cons a l => simp [replay, h]

/-! ### The claims -/

/-- Claim C2: deterministic replay.  For every explicitly passed non-empty event
sequence `E` and optional cutoff date, `replay` computes the same result
regardless of the store it is given: the fold reads no external state (and, the
embedding being a pure function, two calls on the same arguments are trivially
identical). -/
theorem claim_C2 (E : List Transaction) (d : Option Nat) (s₁ s₂ : Store)
    (hE : E ≠ []) :
    replay (some E) d s₁ = replay (some E) d s₂ :=
  replay_explicit_store_indep hE d s₁ s₂

theorem claim_C2_witness :
    ([(⟨"a", 1, .settingsUpdated {}⟩ : Transaction)] ≠ []) ∧
    replay (some [⟨"a", 1, .settingsUpdated {}⟩]) none emptyStore =
      replay (some [⟨"a", 1, .settingsUpdated {}⟩]) none
        (saveTransactions [⟨"b", 2, .settingsUpdated {}⟩] emptyStore) :=
  ⟨by decide, claim_C2 _ none _ _ (by decide)⟩

/-- Claim C10: empty-list fallback.  `replay([], d, s)` does not fold the empty
sequence: it loads the events from the store instead, so it equals
`replay(undefined, d, s)`, and its result reflects the store contents. -/
theorem claim_C10 (d : Option Nat) (s : Store) :
    replay (some []) d s = replay none d s ∧
    (replay (some []) d s).transactions = sortByTimestamp (loadTransactions s) :=
  ⟨rfl, rfl⟩

/-- Claim C9: `CustomRolloverSet` fold rule.  Folding a `CustomRolloverSet`
event for date `d` over any fold state updates only the `rollover` field of
`dailyBudgets[d]`, keeping an existing `baseBudget` and creating the entry with
`baseBudget = 0` when absent; all other dates, the settings and the entries are
untouched. -/
theorem claim_C9 (st : FoldState) (d : Nat) (r delta : Int) (reason : Option String)
    (i : String) (ts : Int) :
    (∀ b, dbGet st.dailyBudgets d = some b →
      dbGet (applyTx st ⟨i, ts, .customRolloverSet d r delta reason⟩).dailyBudgets d
        = some ⟨b.baseBudget, r⟩) ∧
    (dbGet st.dailyBudgets d = none →
      dbGet (applyTx st ⟨i, ts, .customRolloverSet d r delta reason⟩).dailyBudgets d
        = some ⟨0, r⟩) ∧
    (∀ d', d' ≠ d →
      dbGet (applyTx st ⟨i, ts, .customRolloverSet d r delta reason⟩).dailyBudgets d'
        = dbGet st.dailyBudgets d') ∧
    (applyTx st ⟨i, ts, .customRolloverSet d r delta reason⟩).settings = st.settings ∧
    (applyTx st ⟨i, ts, .customRolloverSet d r delta reason⟩).entries = st.entries := by
  refine ⟨?_, ?_, ?_, rfl, rfl⟩
  · intro b hb
    simp [applyTx, hb, dbGet_dbSet_self]
  · intro hb
    simp [applyTx, hb, dbGet_dbSet_self]
  · intro d' hd'
    simp only [applyTx]
    exact dbGet_dbSet_ne _ hd' _

theorem claim_C9_witness :
    dbGet (applyTx ⟨DEFAULT_SETTINGS, [], [(5, ⟨40, 2⟩)]⟩
        ⟨"x", 9, .customRolloverSet 5 7 0 none⟩).dailyBudgets 5 = some ⟨40, 7⟩ ∧
    dbGet (applyTx ⟨DEFAULT_SETTINGS, [], []⟩
        ⟨"x", 9, .customRolloverSet 5 7 0 none⟩).dailyBudgets 5 = some ⟨0, 7⟩ ∧
    dbGet (applyTx ⟨DEFAULT_SETTINGS, [], [(5, ⟨40, 2⟩)]⟩
        ⟨"x", 9, .customRolloverSet 5 7 0 none⟩).dailyBudgets 6 = dbGet [(5, ⟨40, 2⟩)] 6 :=
  ⟨(claim_C9 ⟨DEFAULT_SETTINGS, [], [(5, ⟨40, 2⟩)]⟩ 5 7 0 none "x" 9).1 ⟨40, 2⟩ (by decide),
   (claim_C9 ⟨DEFAULT_SETTINGS, [], []⟩ 5 7 0 none "x" 9).2.1 (by decide),
   (claim_C9 ⟨DEFAULT_SETTINGS, [], [(5, ⟨40, 2⟩)]⟩ 5 7 0 none "x" 9).2.2.1 6 (by decide)⟩

/-- Claim C3: idempotent append.  If an event with the same id already occurs in
the stored log, `appendTransaction` leaves the store entirely unchanged (a
silent no-op); consequently, appending the same event twice to a log that did
not contain its id leaves exactly one event with that id in the log. -/
theorem claim_C3 (s : Store) (e : Transaction) :
    ((∃ t ∈ loadTransactions s, t.id = e.id) → appendTransaction e s = s) ∧
    ((loadTransactions s).countP (fun t => t.id == e.id) = 0 →
      (loadTransactions (appendTransaction e (appendTransaction e s))).countP
        (fun t => t.id == e.id) = 1) := by
  constructor
  · intro h
    exact appendTransaction_of_dup (any_id_eq_true_iff.mpr h)
  · intro h0
    have hnone : ∀ t ∈ loadTransactions s, t.id ≠ e.id := by
      intro t ht
      have := List.countP_eq_zero.mp h0 t ht
      simpa using this
    have hfresh : (loadTransactions s).any (fun t => t.id == e.id) = false :=
      any_id_eq_false_iff.mpr hnone
    have h1 : loadTransactions (appendTransaction e s)
        = sortByTimestamp (loadTransactions s ++ [e]) :=
      loadTransactions_appendTransaction_of_fresh hfresh
    have hcount1 : (loadTransactions (appendTransaction e s)).countP
        (fun t => t.id == e.id) = 1 := by
      rw [h1, (sortByTimestamp_perm _).countP_eq, List.countP_append, h0]
      simp [List.countP_cons]
    have hmem : e ∈ loadTransactions (appendTransaction e s) := by
      rw [h1]
      exact (sortByTimestamp_perm _).mem_iff.mpr (by simp)
    have hdup2 : appendTransaction e (appendTransaction e s) = appendTransaction e s :=
      appendTransaction_of_dup (any_id_eq_true_iff.mpr ⟨e, hmem, rfl⟩)
    rw [hdup2]
    exact hcount1

theorem claim_C3_witness :
    (appendTransaction ⟨"a", 5, .settingsUpdated {}⟩
        (saveTransactions [⟨"a", 1, .settingsUpdated {}⟩] emptyStore)
      = saveTransactions [⟨"a", 1, .settingsUpdated {}⟩] emptyStore) ∧
    (loadTransactions (appendTransaction ⟨"c", 5, .settingsUpdated {}⟩
        (appendTransaction ⟨"c", 5, .settingsUpdated {}⟩ emptyStore))).countP
      (fun t => t.id == "c") = 1 :=
  ⟨(claim_C3 (saveTransactions [⟨"a", 1, .settingsUpdated {}⟩] emptyStore)
      ⟨"a", 5, .settingsUpdated {}⟩).1 ⟨⟨"a", 1, .settingsUpdated {}⟩, by decide, rfl⟩,
   (claim_C3 emptyStore ⟨"c", 5, .settingsUpdated {}⟩).2 (by decide)⟩

/-- Claim C4: sort-on-persist.  The log built by any sequence of appends
starting from an empty store is exactly the stable sort by timestamp of the
events that were actually appended (first occurrence of each id, in append
order) — hence it is always sorted by timestamp ascending, and events with
equal timestamps keep their append order.  Moreover, for an arbitrary stored
log, appending an event whose id is not yet present persists the re-sorted
sequence, which is again sorted. -/
theorem claim_C4 (es : List Transaction) (s : Store) (e : Transaction) :
    loadTransactions (appendAll es emptyStore) = sortByTimestamp (dedupById es) ∧
    List.Sorted tsLe (loadTransactions (appendAll es emptyStore)) ∧
    ((∀ t ∈ loadTransactions s, t.id ≠ e.id) →
      loadTransactions (appendTransaction e s) = sortByTimestamp (loadTransactions s ++ [e]) ∧
      List.Sorted tsLe (loadTransactions (appendTransaction e s))) := by
  refine ⟨appendAll_log es, ?_, ?_⟩
  · rw [appendAll_log es]
    exact sortByTimestamp_sorted _
  · intro h
    have hfresh : (loadTransactions s).any (fun t => t.id == e.id) = false :=
      any_id_eq_false_iff.mpr h
    refine ⟨loadTransactions_appendTransaction_of_fresh hfresh, ?_⟩
    rw [loadTransactions_appendTransaction_of_fresh hfresh]
    exact sortByTimestamp_sorted _

theorem claim_C4_witness :
    loadTransactions (appendAll [⟨"b", 9, .settingsUpdated {}⟩, ⟨"a", 1, .settingsUpdated {}⟩]
        emptyStore)
      = sortByTimestamp (dedupById [⟨"b", 9, .settingsUpdated {}⟩, ⟨"a", 1, .settingsUpdated {}⟩]) ∧
    loadTransactions (appendTransaction ⟨"c", 4, .settingsUpdated {}⟩
        (saveTransactions [⟨"b", 9, .settingsUpdated {}⟩] emptyStore))
      = sortByTimestamp ([⟨"b", 9, .settingsUpdated {}⟩] ++ [⟨"c", 4, .settingsUpdated {}⟩]) :=
  ⟨(claim_C4 [⟨"b", 9, .settingsUpdated {}⟩, ⟨"a", 1, .settingsUpdated {}⟩] emptyStore
      ⟨"c", 4, .settingsUpdated {}⟩).1,
   ((claim_C4 [] (saveTransactions [⟨"b", 9, .settingsUpdated {}⟩] emptyStore)
      ⟨"c", 4, .settingsUpdated {}⟩).2.2 (by decide)).1⟩

theorem replay_state_eq {E : List Transaction} (hE : E ≠ []) (d : Option Nat) (s : Store) :
    (replay (some E) d s).state = runFold (d.map dateMs) initState (sortByTimestamp E) := by
  cases E with
  | nil => exact absurd rfl hE
  | cons a E => rfl

/-- Claim C5: replay cutoff.  For a non-empty explicit event sequence `E` and a
cutoff date `c`, `replay(E, c)` folds exactly the events whose timestamp is not
later than the cutoff instant `dateMs c`: although the loop merely breaks at the
first event of the sorted sequence past the cutoff, the derived state equals the
full fold of the filtered sorted sequence (equivalently, of the sorted filtered
sequence). -/
theorem claim_C5 (E : List Transaction) (c : Nat) (s : Store) (hE : E ≠ []) :
    (replay (some E) (some c) s).state
      = runFold none initState
          ((sortByTimestamp E).filter fun t => decide (t.timestamp ≤ dateMs c)) ∧
    (replay (some E) (some c) s).state
      = runFold none initState
          (sortByTimestamp (E.filter fun t => decide (t.timestamp ≤ dateMs c))) := by
  have h1 : (replay (some E) (some c) s).state
      = runFold none initState
        ((sortByTimestamp E).filter fun t => decide (t.timestamp ≤ dateMs c)) := by
    rw [replay_state_eq hE (some c) s]
    exact runFold_cutoff_eq_filter (sortByTimestamp_sorted E) initState
  refine ⟨h1, ?_⟩
  rw [h1, filter_sortByTimestamp]

theorem claim_C5_witness :
    ([(⟨"a", 0, .entryAdded ⟨"x", 0, 10, "n", 0⟩⟩ : Transaction),
      ⟨"b", 2 * msPerDay, .entryAdded ⟨"y", 2, 20, "m", 2 * msPerDay⟩⟩] ≠ []) ∧
    (replay (some [⟨"a", 0, .entryAdded ⟨"x", 0, 10, "n", 0⟩⟩,
        ⟨"b", 2 * msPerDay, .entryAdded ⟨"y", 2, 20, "m", 2 * msPerDay⟩⟩]) (some 1)
        emptyStore).state
      = runFold none initState
          ((sortByTimestamp [⟨"a", 0, .entryAdded ⟨"x", 0, 10, "n", 0⟩⟩,
            ⟨"b", 2 * msPerDay, .entryAdded ⟨"y", 2, 20, "m", 2 * msPerDay⟩⟩]).filter
            fun t => decide (t.timestamp ≤ dateMs 1)) :=
  ⟨by decide,
   (claim_C5 [⟨"a", 0, .entryAdded ⟨"x", 0, 10, "n", 0⟩⟩,
      ⟨"b", 2 * msPerDay, .entryAdded ⟨"y", 2, 20, "m", 2 * msPerDay⟩⟩] 1 emptyStore
      (by decide)).1⟩

theorem dailyBudgets_replay_append_settings (s : Store) (e : Transaction) (d : Nat)
    (hset : ∃ p, e.data = .settingsUpdated p)
    (hmax : ∀ t ∈ loadTransactions s, t.timestamp ≤ e.timestamp) :
    dbGet (replay none none (appendTransaction e s)).dailyBudgets d
      = dbGet (replay none none s).dailyBudgets d := by
  by_cases hdup : (loadTransactions s).any (fun t => t.id == e.id) = true
  · rw [appendTransaction_of_dup hdup]
  · have hfresh : (loadTransactions s).any (fun t => t.id == e.id) = false :=
      Bool.eq_false_iff.mpr hdup
    have hlog : loadTransactions (appendTransaction e s)
        = sortByTimestamp (loadTransactions s ++ [e]) :=
      loadTransactions_appendTransaction_of_fresh hfresh
    have hkey : sortByTimestamp (loadTransactions s ++ [e])
        = sortByTimestamp (loadTransactions s) ++ [e] := by
      show List.insertionSort tsLe _ = _
      rw [insertionSort_concat]
      apply stableInsert_of_le
      intro x hx
      exact hmax x ((List.mem_insertionSort tsLe).mp hx)
    obtain ⟨p, hp⟩ := hset
    show dbGet (runFold none initState
        (sortByTimestamp (loadTransactions (appendTransaction e s)))).dailyBudgets d
      = dbGet (runFold none initState (sortByTimestamp (loadTransactions s))).dailyBudgets d
    rw [hlog, sortByTimestamp_idem, hkey, runFold_append]
    show dbGet (applyTx (runFold none initState
        (sortByTimestamp (loadTransactions s))) e).dailyBudgets d = _
    simp [applyTx, hp]

/-- Claim C1: immutability of frozen history.  If replaying the stored log
yields `dailyBudgets[d] = {baseBudget: b, rollover: r}`, then appending a
`SettingsUpdated` event with a timestamp not earlier than every stored event and
replaying again still yields the same value for `d`; indeed the settings fold
case never writes to `dailyBudgets` at all. -/
theorem claim_C1 (s : Store) (d : Nat) (b r : Int) (patch : SettingsPatch)
    (i : String) (ts : Int)
    (hmax : ∀ t ∈ loadTransactions s, t.timestamp ≤ ts)
    (hd : dbGet (replay none none s).dailyBudgets d = some ⟨b, r⟩) :
    dbGet (replay none none
        (appendTransaction ⟨i, ts, .settingsUpdated patch⟩ s)).dailyBudgets d
      = some ⟨b, r⟩ ∧
    ∀ st : FoldState,
      (applyTx st ⟨i, ts, .settingsUpdated patch⟩).dailyBudgets = st.dailyBudgets := by
  refine ⟨?_, fun st => rfl⟩
  rw [dailyBudgets_replay_append_settings s ⟨i, ts, .settingsUpdated patch⟩ d ⟨patch, rfl⟩ hmax]
  exact hd

theorem claim_C1_witness :
    dbGet (replay none none
        (appendTransaction ⟨"s1", 9, .settingsUpdated { weekdayBudget := some 200 }⟩
          (saveTransactions [⟨"d1", 5, .dailyBudgetCreated 7 300 0⟩]
            emptyStore))).dailyBudgets 7
      = some ⟨300, 0⟩ :=
  (claim_C1 (saveTransactions [⟨"d1", 5, .dailyBudgetCreated 7 300 0⟩] emptyStore)
    7 300 0 { weekdayBudget := some 200 } "s1" 9 (by decide) (by decide)).1

/-- Claim C8: migration idempotence fails on the code.  With legacy settings
whose `startDate` lies two days in the past and an empty log, the first
`migrateFromLegacyModel` call materializes two daily budgets (the log ends up
with 3 events) but reports `totalTransactions = 1`, because it counts budget
keys by replaying only the seed transaction list — which contains no
daily-budget events — instead of the refreshed log; the second call then
reports `alreadyMigrated = true` with `totalTransactions = 3 ≠ 1`, contradicting
the documented idempotence ("calling multiple times returns the same result").
The second call does leave the log unchanged. -/
theorem claim_C8 :
    (migrateFromLegacyModel (fun _ _ _ => none) 2 (10 ^ 12)
        ⟨none, some { startDate := some (some 0) }, none⟩).1.totalTransactions = 1 ∧
    (loadTransactions (migrateFromLegacyModel (fun _ _ _ => none) 2 (10 ^ 12)
        ⟨none, some { startDate := some (some 0) }, none⟩).2).length = 3 ∧
    (migrateFromLegacyModel (fun _ _ _ => none) 2 (10 ^ 12)
        (migrateFromLegacyModel (fun _ _ _ => none) 2 (10 ^ 12)
          ⟨none, some { startDate := some (some 0) }, none⟩).2).1.alreadyMigrated = true ∧
    (migrateFromLegacyModel (fun _ _ _ => none) 2 (10 ^ 12)
        (migrateFromLegacyModel (fun _ _ _ => none) 2 (10 ^ 12)
          ⟨none, some { startDate := some (some 0) }, none⟩).2).1.totalTransactions = 3 ∧
    (migrateFromLegacyModel (fun _ _ _ => none) 2 (10 ^ 12)
        (migrateFromLegacyModel (fun _ _ _ => none) 2 (10 ^ 12)
          ⟨none, some { startDate := some (some 0) }, none⟩).2).2
      = (migrateFromLegacyModel (fun _ _ _ => none) 2 (10 ^ 12)
          ⟨none, some { startDate := some (some 0) }, none⟩).2 := by
  refine ⟨?_, ?_, ?_, ?_, ?_⟩ <;> decide

/-! ### Helper lemmas for `ensureDailyBudgetForDate` -/

/-- The value `ensureDailyBudgetForDate` computes when no daily budget exists
yet: the Stats Calculator result for the date, or the zeroed fallback. -/
def ensureValue (statsFor : StatsFor) (date : Nat) (st : FoldState) : DailyBudget :=
  match statsFor st.settings st.entries date with
  | none => ⟨0, 0⟩
  | some ds => ⟨ds.baseBudget, ds.rollover⟩

theorem replay_none_state (d : Option Nat) (s : Store) :
    (replay none d s).state
      = runFold (d.map dateMs) initState (sortByTimestamp (loadTransactions s)) := rfl

theorem ensure_none_of_some {statsFor : StatsFor} {nowMs : Int} {date : Nat} {s : Store}
    {b : DailyBudget}
    (hdb : dbGet (replay none (some date) s).dailyBudgets date = some b) :
    ensureDailyBudgetForDate statsFor nowMs date none s = (b, s) := by
  have h : dbGet (replay (some (loadTransactions s)) (some date) s).dailyBudgets date
      = some b := by
    rw [replay_loadTransactions_eq_none]
    exact hdb
  simp only [ensureDailyBudgetForDate, h]

theorem ensure_none_of_none {statsFor : StatsFor} {nowMs : Int} {date : Nat} {s : Store}
    (hdb : dbGet (replay none (some date) s).dailyBudgets date = none) :
    ensureDailyBudgetForDate statsFor nowMs date none s =
      (ensureValue statsFor date (replay none (some date) s).state,
       appendTransaction
         ⟨dailyTxId date, nowMs,
          .dailyBudgetCreated date
            (ensureValue statsFor date (replay none (some date) s).state).baseBudget
            (ensureValue statsFor date (replay none (some date) s).state).rollover⟩ s) := by
  have h : dbGet (replay (some (loadTransactions s)) (some date) s).dailyBudgets date
      = none := by
    rw [replay_loadTransactions_eq_none]
    exact hdb
  have hrep : replay (some (loadTransactions s)) (some date) s
      = replay none (some date) s := replay_loadTransactions_eq_none (some date) s
  simp only [ensureDailyBudgetForDate, h, hrep]
  rcases hst : statsFor (replay none (some date) s).settings
      (replay none (some date) s).entries date with _ | ds <;>
    simp [ensureValue, ReplayResult.state, hst, hdb]

theorem runFold_cutoff_sort (c : Int) (L : List Transaction) (st : FoldState) :
    runFold (some c) st (sortByTimestamp L)
      = runFold none st (sortByTimestamp (L.filter fun t => decide (t.timestamp ≤ c))) := by
  rw [runFold_cutoff_eq_filter (sortByTimestamp_sorted L), filter_sortByTimestamp]

theorem replay_some_date_state (s : Store) (date : Nat) :
    (replay none (some date) s).state
      = runFold none initState
          (sortByTimestamp ((loadTransactions s).filter
            fun t => decide (t.timestamp ≤ dateMs date))) := by
  rw [replay_none_state]
  show runFold (some (dateMs date)) initState (sortByTimestamp (loadTransactions s)) = _
  exact runFold_cutoff_sort (dateMs date) (loadTransactions s) initState

theorem ensure_first_call {statsFor : StatsFor} {nowMs₁ : Int} {date : Nat} {s₀ : Store}
    (hdb : dbGet (replay none (some date) s₀).dailyBudgets date = none) :
    ensureDailyBudgetForDate statsFor nowMs₁ date none s₀
      = (ensureValue statsFor date (replay none (some date) s₀).state,
         appendTransaction
           ⟨dailyTxId date, nowMs₁,
            .dailyBudgetCreated date
              (ensureValue statsFor date (replay none (some date) s₀).state).baseBudget
              (ensureValue statsFor date (replay none (some date) s₀).state).rollover⟩ s₀) :=
  ensure_none_of_none hdb

theorem ensure_second_call (statsFor : StatsFor) (nowMs₁ nowMs₂ : Int) (date : Nat)
    (s₀ : Store) (h0 : ∀ t ∈ loadTransactions s₀, t.id ≠ dailyTxId date) :
    ensureDailyBudgetForDate statsFor nowMs₂ date none
        (ensureDailyBudgetForDate statsFor nowMs₁ date none s₀).2
      = ((ensureDailyBudgetForDate statsFor nowMs₁ date none s₀).1,
         (ensureDailyBudgetForDate statsFor nowMs₁ date none s₀).2) := by
  rcases hdb : dbGet (replay none (some date) s₀).dailyBudgets date with _ | b
  · -- first call appends a daily-budget transaction
    have h1 := @ensure_first_call statsFor nowMs₁ date s₀ hdb
    set v := ensureValue statsFor date (replay none (some date) s₀).state with hv
    set tx₁ : Transaction :=
      ⟨dailyTxId date, nowMs₁, .dailyBudgetCreated date v.baseBudget v.rollover⟩ with htx₁
    set s₁ := appendTransaction tx₁ s₀ with hs₁
    have hfresh : (loadTransactions s₀).any (fun t => t.id == tx₁.id) = false :=
      any_id_eq_false_iff.mpr h0
    have hlog : loadTransactions s₁ = sortByTimestamp (loadTransactions s₀ ++ [tx₁]) :=
      loadTransactions_appendTransaction_of_fresh hfresh
    have hmem₁ : tx₁ ∈ loadTransactions s₁ := by
      rw [hlog]
      exact (sortByTimestamp_perm _).mem_iff.mpr (by simp)
    have hstate₁ : (replay none (some date) s₁).state
        = runFold none initState
            (sortByTimestamp ((loadTransactions s₀ ++ [tx₁]).filter
              fun t => decide (t.timestamp ≤ dateMs date))) := by
      rw [replay_some_date_state, hlog, filter_sortByTimestamp, sortByTimestamp_idem]
    have hens₂ : ensureDailyBudgetForDate statsFor nowMs₂ date none s₁ = (v, s₁) := by
      by_cases hcut : nowMs₁ ≤ dateMs date
      · -- the appended transaction survives the cutoff: the second replay sees it
        have hfilters : (loadTransactions s₀ ++ [tx₁]).filter
            (fun t => decide (t.timestamp ≤ dateMs date))
            = (loadTransactions s₀).filter (fun t => decide (t.timestamp ≤ dateMs date))
              ++ [tx₁] := by
          rw [List.filter_append]
          simp [htx₁, hcut]
        have hdb₀ : dbGet (runFold none initState
            (sortByTimestamp ((loadTransactions s₀).filter
              fun t => decide (t.timestamp ≤ dateMs date)))).dailyBudgets date = none := by
          rw [← replay_some_date_state]
          exact hdb
        have hnowriters : ∀ t ∈ (loadTransactions s₀).filter
            (fun t => decide (t.timestamp ≤ dateMs date)), ¬ writesDate t date := by
          intro t ht
          exact (dbGet_runFold_eq_none hdb₀).2 t ((sortByTimestamp_perm _).mem_iff.mpr ht)
        have he : tx₁.data = TxData.dailyBudgetCreated date v.baseBudget v.rollover := rfl
        have hdb₁ : dbGet (replay none (some date) s₁).dailyBudgets date = some v := by
          show dbGet (replay none (some date) s₁).state.dailyBudgets date = some v
          rw [hstate₁, hfilters]
          refine dbGet_runFold_unique_writer he
            ((sortByTimestamp_perm _).mem_iff.mpr (by simp)) ?_ rfl
          intro t ht hw
          have ht' := (sortByTimestamp_perm _).mem_iff.mp ht
          rcases List.mem_append.mp ht' with h' | h'
          · exact absurd hw (hnowriters t h')
          · simpa using h'
        exact ensure_none_of_some hdb₁
      · -- the appended transaction is past the cutoff: the second replay is
        -- identical to the first
        have hfilters : (loadTransactions s₀ ++ [tx₁]).filter
            (fun t => decide (t.timestamp ≤ dateMs date))
            = (loadTransactions s₀).filter (fun t => decide (t.timestamp ≤ dateMs date)) := by
          rw [List.filter_append]
          simp [htx₁, hcut]
        have hstate_eq : (replay none (some date) s₁).state
            = (replay none (some date) s₀).state := by
          rw [hstate₁, hfilters, ← replay_some_date_state]
        have hdb₁ : dbGet (replay none (some date) s₁).dailyBudgets date = none := by
          show dbGet (replay none (some date) s₁).state.dailyBudgets date = none
          rw [hstate_eq]
          exact hdb
        have hv₂ : ensureValue statsFor date (replay none (some date) s₁).state = v := by
          rw [hstate_eq]
        have happend₂ : appendTransaction
            ⟨dailyTxId date, nowMs₂, .dailyBudgetCreated date v.baseBudget v.rollover⟩ s₁
            = s₁ :=
          appendTransaction_of_dup (any_id_eq_true_iff.mpr ⟨tx₁, hmem₁, rfl⟩)
        rw [@ensure_first_call statsFor nowMs₂ date s₁ hdb₁, hv₂, happend₂]
    rw [h1]
    exact hens₂
  · -- the daily budget already exists: both calls read it and leave the store alone
    have h1 := @ensure_none_of_some statsFor nowMs₁ date s₀ b hdb
    have h2 := @ensure_none_of_some statsFor nowMs₂ date s₀ b hdb
    rw [h1]
    exact h2

theorem ensure_count (statsFor : StatsFor) (nowMs₁ : Int) (date : Nat) (s₀ : Store)
    (h0 : ∀ t ∈ loadTransactions s₀, t.id ≠ dailyTxId date) :
    (loadTransactions (ensureDailyBudgetForDate statsFor nowMs₁ date none s₀).2).countP
        (fun t => t.id == dailyTxId date) ≤ 1 ∧
    (dbGet (replay none (some date) s₀).dailyBudgets date = none →
      (loadTransactions (ensureDailyBudgetForDate statsFor nowMs₁ date none s₀).2).countP
        (fun t => t.id == dailyTxId date) = 1) := by
  have hcount0 : (loadTransactions s₀).countP (fun t => t.id == dailyTxId date) = 0 := by
    rw [List.countP_eq_zero]
    intro t ht
    simpa using h0 t ht
  rcases hdb : dbGet (replay none (some date) s₀).dailyBudgets date with _ | b
  · have h1 := @ensure_first_call statsFor nowMs₁ date s₀ hdb
    set v := ensureValue statsFor date (replay none (some date) s₀).state with hv
    set tx₁ : Transaction :=
      ⟨dailyTxId date, nowMs₁, .dailyBudgetCreated date v.baseBudget v.rollover⟩ with htx₁
    have hfresh : (loadTransactions s₀).any (fun t => t.id == tx₁.id) = false :=
      any_id_eq_false_iff.mpr h0
    have hlog : loadTransactions (appendTransaction tx₁ s₀)
        = sortByTimestamp (loadTransactions s₀ ++ [tx₁]) :=
      loadTransactions_appendTransaction_of_fresh hfresh
    have hcount1 : (loadTransactions (appendTransaction tx₁ s₀)).countP
        (fun t => t.id == dailyTxId date) = 1 := by
      rw [hlog, (sortByTimestamp_perm _).countP_eq, List.countP_append, hcount0]
      simp [List.countP_cons, htx₁]
    rw [h1]
    exact ⟨le_of_eq hcount1, fun _ => hcount1⟩
  · have h1 := @ensure_none_of_some statsFor nowMs₁ date s₀ b hdb
    rw [h1]
    refine ⟨le_trans (le_of_eq hcount0) (by omega), fun hnone => ?_⟩
    exact absurd hnone (by simp)

/-- Claim C6: `ensureDailyBudgetForDate` idempotence.  If `dailyBudgets[date]`
already exists after replaying up through `date`, the function returns that
value and leaves the store untouched; otherwise it appends exactly one
`DailyBudgetCreated` event whose id is the deterministic `tx-daily-${date}`.
Consequently, on a log with no event of that id, any number of calls leaves at
most one such event in the log, and a second call (at any later clock reading)
returns the same `{baseBudget, rollover}` and leaves the store unchanged. -/
theorem claim_C6 (statsFor : StatsFor) (nowMs₁ nowMs₂ : Int) (date : Nat) (s₀ : Store)
    (h0 : ∀ t ∈ loadTransactions s₀, t.id ≠ dailyTxId date) :
    (∀ b, dbGet (replay none (some date) s₀).dailyBudgets date = some b →
      ensureDailyBudgetForDate statsFor nowMs₁ date none s₀ = (b, s₀)) ∧
    (dbGet (replay none (some date) s₀).dailyBudgets date = none →
      (loadTransactions (ensureDailyBudgetForDate statsFor nowMs₁ date none s₀).2).countP
        (fun t => t.id == dailyTxId date) = 1) ∧
    (loadTransactions (ensureDailyBudgetForDate statsFor nowMs₁ date none s₀).2).countP
        (fun t => t.id == dailyTxId date) ≤ 1 ∧
    ensureDailyBudgetForDate statsFor nowMs₂ date none
        (ensureDailyBudgetForDate statsFor nowMs₁ date none s₀).2
      = ((ensureDailyBudgetForDate statsFor nowMs₁ date none s₀).1,
         (ensureDailyBudgetForDate statsFor nowMs₁ date none s₀).2) :=
  ⟨fun _ hb => ensure_none_of_some hb,
   (ensure_count statsFor nowMs₁ date s₀ h0).2,
   (ensure_count statsFor nowMs₁ date s₀ h0).1,
   ensure_second_call statsFor nowMs₁ nowMs₂ date s₀ h0⟩

theorem claim_C6_witness :
    (loadTransactions (ensureDailyBudgetForDate (fun _ _ _ => some ⟨7, 1⟩) (10 ^ 12) 3 none
        (saveTransactions [⟨"a", 0, .settingsUpdated {}⟩] emptyStore)).2).countP
      (fun t => t.id == dailyTxId 3) = 1 ∧
    ensureDailyBudgetForDate (fun _ _ _ => some ⟨7, 1⟩) (2 * 10 ^ 12) 3 none
        (ensureDailyBudgetForDate (fun _ _ _ => some ⟨7, 1⟩) (10 ^ 12) 3 none
          (saveTransactions [⟨"a", 0, .settingsUpdated {}⟩] emptyStore)).2
      = ((ensureDailyBudgetForDate (fun _ _ _ => some ⟨7, 1⟩) (10 ^ 12) 3 none
            (saveTransactions [⟨"a", 0, .settingsUpdated {}⟩] emptyStore)).1,
         (ensureDailyBudgetForDate (fun _ _ _ => some ⟨7, 1⟩) (10 ^ 12) 3 none
            (saveTransactions [⟨"a", 0, .settingsUpdated {}⟩] emptyStore)).2) :=
  ⟨(claim_C6 (fun _ _ _ => some ⟨7, 1⟩) (10 ^ 12) (2 * 10 ^ 12) 3
      (saveTransactions [⟨"a", 0, .settingsUpdated {}⟩] emptyStore) (by decide)).2.1
      (by decide),
   (claim_C6 (fun _ _ _ => some ⟨7, 1⟩) (10 ^ 12) (2 * 10 ^ 12) 3
      (saveTransactions [⟨"a", 0, .settingsUpdated {}⟩] emptyStore) (by decide)).2.2.2⟩

theorem dateRange_cons {a b : Nat} (h : a ≤ b) : dateRange a b = a :: dateRange (a + 1) b := by
  unfold dateRange
  rw [show b + 1 - a = (b + 1 - (a + 1)) + 1 by omega, List.range_succ_eq_map]
  simp only [List.map_cons, Nat.add_zero, List.map_map]
  congr 1
  apply List.map_congr_left
  intro x _
  simp only [Function.comp_apply]
  omega

theorem dateRange_nil {a b : Nat} (h : ¬ a ≤ b) : dateRange a b = [] := by
  unfold dateRange
  rw [show b + 1 - a = 0 by omega]
  rfl

theorem materializeLoop_spec (statsFor : StatsFor) (today : Nat) (nowMs : Int)
    {txs : List Transaction} (htxs : txs ≠ []) (throughDate : Nat) (sRef : Store) :
    ∀ (fuel cur : Nat), throughDate + 1 - cur ≤ fuel → ∀ (s : Store) (acc : List Nat),
      materializeLoop statsFor today nowMs txs throughDate fuel cur s acc
        = (acc ++ (dateRange cur throughDate).filter
            (fun c2 => decide (c2 < today) &&
              (dbGet (replay (some txs) (some c2) sRef).dailyBudgets c2).isNone),
          ((dateRange cur throughDate).filter
            (fun c2 => decide (c2 < today) &&
              (dbGet (replay (some txs) (some c2) sRef).dailyBudgets c2).isNone)).foldl
            (fun st c2 => (ensureDailyBudgetForDate statsFor nowMs c2 (some txs) st).2) s) := by
  intro fuel
  induction fuel with
  | zero =>
      intro cur hfuel s acc
      have hcur : ¬ cur ≤ throughDate := by omega
      rw [dateRange_nil hcur]
      simp [materializeLoop]
  | succ fuel ih =>
      intro cur hfuel s acc
      by_cases hcur : cur ≤ throughDate
      · rw [dateRange_cons hcur, List.filter_cons]
        have hrepl : replay (some txs) (some cur) s = replay (some txs) (some cur) sRef :=
          replay_explicit_store_indep htxs (some cur) s sRef
        by_cases htoday : cur < today
        · rcases hdbc : dbGet (replay (some txs) (some cur) sRef).dailyBudgets cur with _ | bb
          · rw [if_pos (show (decide (cur < today)
                && (none : Option DailyBudget).isNone) = true by simp [htoday])]
            have hloop : materializeLoop statsFor today nowMs txs throughDate (fuel + 1) cur s acc
                = materializeLoop statsFor today nowMs txs throughDate fuel (cur + 1)
                    (ensureDailyBudgetForDate statsFor nowMs cur (some txs) s).2
                    (acc ++ [cur]) := by
              rw [materializeLoop, if_pos hcur, if_pos htoday, hrepl, hdbc]
            rw [hloop, ih (cur + 1) (by omega)]
            simp only [List.foldl_cons, List.append_assoc, List.singleton_append]
          · rw [if_neg (show ¬ ((decide (cur < today)
                && (some bb).isNone) = true) by simp)]
            have hloop : materializeLoop statsFor today nowMs txs throughDate (fuel + 1) cur s acc
                = materializeLoop statsFor today nowMs txs throughDate fuel (cur + 1) s acc := by
              rw [materializeLoop, if_pos hcur, if_pos htoday, hrepl, hdbc]
            rw [hloop, ih (cur + 1) (by omega)]
        · rw [if_neg (show ¬ ((decide (cur < today) &&
              (dbGet (replay (some txs) (some cur) sRef).dailyBudgets cur).isNone) = true) by
                simp [htoday])]
          have hloop : materializeLoop statsFor today nowMs txs throughDate (fuel + 1) cur s acc
              = materializeLoop statsFor today nowMs txs throughDate fuel (cur + 1) s acc := by
            rw [materializeLoop, if_pos hcur, if_neg htoday]
          rw [hloop, ih (cur + 1) (by omega)]
      · rw [dateRange_nil hcur]
        rw [materializeLoop, if_neg hcur]
        simp

/-- Claim C7: `materializeUpTo` walks every date from the derived start date to
`throughDate` inclusive, materializes (via `ensureDailyBudgetForDate`) exactly
the dates strictly earlier than the Clock's current date that have no
`dailyBudgets` entry in a replay of the loaded snapshot through that date, and
returns exactly that list of dates (empty when nothing qualifies); in
particular, today itself is never in the returned list. -/
theorem claim_C7 (statsFor : StatsFor) (today : Nat) (nowMs : Int) (throughDate : Nat)
    (s : Store) (hne : loadTransactions s ≠ []) :
    (materializeUpTo statsFor today nowMs throughDate s).1
      = (dateRange ((replay none none s).settings.startDate.getD today) throughDate).filter
          (fun c2 => decide (c2 < today) &&
            (dbGet (replay (some (loadTransactions s)) (some c2) s).dailyBudgets c2).isNone) ∧
    (materializeUpTo statsFor today nowMs throughDate s).2
      = ((materializeUpTo statsFor today nowMs throughDate s).1).foldl
          (fun st c2 => (ensureDailyBudgetForDate statsFor nowMs c2
            (some (loadTransactions s)) st).2) s ∧
    today ∉ (materializeUpTo statsFor today nowMs throughDate s).1 := by
  have hstart : (replay (some (loadTransactions s)) none s).settings
      = (replay none none s).settings := by
    rw [replay_loadTransactions_eq_none]
  have hunfold : materializeUpTo statsFor today nowMs throughDate s
      = materializeLoop statsFor today nowMs (loadTransactions s) throughDate
          (throughDate + 1 - ((replay none none s).settings.startDate.getD today))
          ((replay none none s).settings.startDate.getD today) s [] := by
    simp only [materializeUpTo, hstart]
  have hspec := materializeLoop_spec statsFor today nowMs hne throughDate s
    (throughDate + 1 - ((replay none none s).settings.startDate.getD today))
    ((replay none none s).settings.startDate.getD today) (le_refl _) s []
  rw [hunfold, hspec]
  refine ⟨by simp, by simp, ?_⟩
  intro hmem
  simp only [List.nil_append] at hmem
  have hcond := (List.mem_filter.mp hmem).2
  simp at hcond

theorem claim_C7_witness :
    (loadTransactions (saveTransactions
        [⟨"a", 0, .settingsUpdated { startDate := some (some 0) }⟩] emptyStore) ≠ []) ∧
    (materializeUpTo (fun _ _ _ => some ⟨5, 0⟩) 2 (10 ^ 12) 2
        (saveTransactions [⟨"a", 0, .settingsUpdated { startDate := some (some 0) }⟩]
          emptyStore)).1
      = (dateRange ((replay none none (saveTransactions
            [⟨"a", 0, .settingsUpdated { startDate := some (some 0) }⟩]
            emptyStore)).settings.startDate.getD 2) 2).filter
          (fun c2 => decide (c2 < 2) &&
            (dbGet (replay (some (loadTransactions (saveTransactions
                [⟨"a", 0, .settingsUpdated { startDate := some (some 0) }⟩] emptyStore)))
              (some c2) (saveTransactions
                [⟨"a", 0, .settingsUpdated { startDate := some (some 0) }⟩]
                emptyStore)).dailyBudgets c2).isNone) :=
  ⟨by decide,
   (claim_C7 (fun _ _ _ => some ⟨5, 0⟩) 2 (10 ^ 12) 2
      (saveTransactions [⟨"a", 0, .settingsUpdated { startDate := some (some 0) }⟩]
        emptyStore) (by decide)).1⟩

end BrewBalance
